import Mathlib

/-!
Shallow embedding of the Memflix class (`src/unnamed/part_000`): chunking,
the in-memory chunk index and vector store, cosine-similarity search, and the
encode/decode orchestration around the external QR/ffmpeg capabilities.

Modelling conventions:
* JS numbers are modelled as exact rationals (`ℚ`); a similarity value of the
  form `d / (√p·√q)` is represented exactly by `SimVal` as `d / √(p·q)`, and
  `Option SimVal` models a JS number that may be NaN (`none` = NaN).
* JS `Map` objects are modelled as insertion-ordered association lists with
  `mapSet` implementing `Map.set` (update in place, else append).
* Strings processed by the chunker are modelled as `List Char`.
* External effects (embedding provider, QR codec, ffmpeg, filesystem) enter the
  model as explicit parameters or `Except`-valued inputs.
-/

namespace Memflix

/-- JS `Map.set k v` on an insertion-ordered association list: overwrite the
value in place if the key is present, otherwise append the pair. -/
def mapSet {β : Type} (k : String) (v : β) : List (String × β) → List (String × β)
  | [] => [(k, v)]
  | (k', v') :: rest => if k' = k then (k, v) :: rest else (k', v') :: mapSet k v rest

/-- JS `Map.get k`: first value stored under `k`, if any. -/
def mapGet {β : Type} (k : String) : List (String × β) → Option β
  | [] => none
  | (k', v') :: rest => if k' = k then some v' else mapGet k rest

theorem mapSet_of_not_mem {β : Type} {k : String} {v : β} {l : List (String × β)}
    (h : k ∉ l.map Prod.fst) : mapSet k v l = l ++ [(k, v)] := by
  induction l with
  | nil => rfl
  | cons p rest ih =>
    rcases p with ⟨pk, pv⟩
    simp only [List.map_cons, List.mem_cons] at h
    push_neg at h
    simp [mapSet, Ne.symm h.1, ih h.2]

theorem mem_mapSet {β : Type} {k : String} {v : β} {l : List (String × β)} {p : String × β}
    (h : p ∈ mapSet k v l) : p = (k, v) ∨ p ∈ l := by
  induction l with
  | nil => simpa [mapSet] using h
  | cons q rest ih =>
    rcases q with ⟨qk, qv⟩
    by_cases hq : qk = k
    · simp only [mapSet, if_pos hq, List.mem_cons] at h
      rcases h with h | h
      · exact Or.inl h
      · exact Or.inr (List.mem_cons_of_mem _ h)
    · simp only [mapSet, if_neg hq, List.mem_cons] at h
      rcases h with h | h
      · exact Or.inr (by simp [h])
      · rcases ih h with h' | h'
        · exact Or.inl h'
        · exact Or.inr (List.mem_cons_of_mem _ h')

theorem self_mem_keys_mapSet {β : Type} (k : String) (v : β) (l : List (String × β)) :
    k ∈ (mapSet k v l).map Prod.fst := by
  induction l with
  | nil => simp [mapSet]
  | cons q rest ih =>
    rcases q with ⟨qk, qv⟩
    by_cases hq : qk = k
    · simp [mapSet, hq]
    · simp only [mapSet, if_neg hq, List.map_cons, List.mem_cons]
      exact Or.inr ih

theorem keys_mem_mapSet {β : Type} {k' : String} (k : String) (v : β) {l : List (String × β)}
    (h : k' ∈ l.map Prod.fst) : k' ∈ (mapSet k v l).map Prod.fst := by
  induction l with
  | nil => simp at h
  | cons q rest ih =>
    rcases q with ⟨qk, qv⟩
    by_cases hq : qk = k
    · simp only [List.map_cons, List.mem_cons] at h
      rcases h with h | h
      · subst hq; simp [mapSet, h]
      · simp only [mapSet, if_pos hq, List.map_cons, List.mem_cons]
        exact Or.inr h
    · simp only [List.map_cons, List.mem_cons] at h
      simp only [mapSet, if_neg hq, List.map_cons, List.mem_cons]
      rcases h with h | h
      · exact Or.inl h
      · exact Or.inr (ih h)

/-- Exact representation of a JS number of the form `num / √den`; every value
the code constructs has `den > 0`. `cosineSimilarity` produces
`dot(a,b) / (√(Σaᵢ²)·√(Σbᵢ²))`, represented as `⟨dot(a,b), (Σaᵢ²)·(Σbᵢ²)⟩`;
the plain number `q` is represented as `⟨q, 1⟩`. -/
structure SimVal where
  num : ℚ
  den : ℚ
deriving DecidableEq, Repr

/-- Decides `x ≤ y` for the represented values `x.num/√x.den ≤ y.num/√y.den`
(valid when both `den`s are positive); the comparison is squared sign-wise to
stay inside ℚ. -/
def simValLe (x y : SimVal) : Bool :=
  if 0 ≤ x.num then
    decide (0 ≤ y.num ∧ x.num * x.num * y.den ≤ y.num * y.num * x.den)
  else
    decide (0 ≤ y.num ∨ y.num * y.num * x.den ≤ x.num * x.num * y.den)

theorem simValLe_total (x y : SimVal) : simValLe x y = true ∨ simValLe y x = true := by
  unfold simValLe
  by_cases hx : 0 ≤ x.num <;> by_cases hy : 0 ≤ y.num <;>
    simp only [hx, hy, if_true, if_false, ite_true, ite_false, decide_eq_true_eq,
      true_and, false_and, true_or, or_true, false_or, or_false, eq_self_iff_true,
      not_true, not_false_iff] <;>
    exact le_total _ _

theorem simValLe_trans {x y z : SimVal} (hxd : 0 < x.den) (hyd : 0 < y.den) (hzd : 0 < z.den)
    (h1 : simValLe x y = true) (h2 : simValLe y z = true) : simValLe x z = true := by
  unfold simValLe at h1 h2 ⊢
  by_cases hx : 0 ≤ x.num <;> by_cases hy : 0 ≤ y.num <;> by_cases hz : 0 ≤ z.num <;>
    simp only [hx, hy, hz, if_true, if_false, ite_true, ite_false, decide_eq_true_eq,
      true_and, false_and, true_or, or_true, false_or, or_false] at h1 h2 ⊢
  · have A := mul_le_mul_of_nonneg_right h1 hzd.le
    have B := mul_le_mul_of_nonneg_right h2 hxd.le
    have C : x.num * x.num * z.den * y.den ≤ z.num * z.num * x.den * y.den := by nlinarith
    exact le_of_mul_le_mul_right C hyd
  · have A := mul_le_mul_of_nonneg_right h1 hzd.le
    have B := mul_le_mul_of_nonneg_right h2 hxd.le
    have C : z.num * z.num * x.den * y.den ≤ x.num * x.num * z.den * y.den := by nlinarith
    exact le_of_mul_le_mul_right C hyd

/-- Insertion step of a stable sort: `x` is placed after every element `y` that
strictly precedes it (`bef y x = true`) and before the first element that does
not, so an element equal under the comparator keeps its original (later)
position. -/
def insertEntry {α : Type} (bef : α → α → Bool) (x : α) : List α → List α
  | [] => [x]
  | y :: ys => if bef y x then y :: insertEntry bef x ys else x :: y :: ys

/-- Stable sort placing `a` before `b` when `bef a b = true`; models JS
`Array.prototype.sort(cmp)` (required stable by ECMA-262) with
`bef a b ↔ cmp(a,b) < 0`. -/
def stableSort {α : Type} (bef : α → α → Bool) : List α → List α
  | [] => []
  | x :: xs => insertEntry bef x (stableSort bef xs)

theorem length_insertEntry {α : Type} (bef : α → α → Bool) (x : α) (l : List α) :
    (insertEntry bef x l).length = l.length + 1 := by
  induction l with
  | nil => rfl
  | cons y ys ih =>
    by_cases hb : bef y x
    · simp [insertEntry, hb, ih]
    · simp [insertEntry, hb]

theorem length_stableSort {α : Type} (bef : α → α → Bool) (l : List α) :
    (stableSort bef l).length = l.length := by
  induction l with
  | nil => rfl
  | cons x xs ih => simp [stableSort, length_insertEntry, ih]

theorem mem_insertEntry {α : Type} {bef : α → α → Bool} {x z : α} {l : List α} :
    z ∈ insertEntry bef x l ↔ z = x ∨ z ∈ l := by
  induction l with
  | nil => simp [insertEntry]
  | cons y ys ih =>
    by_cases hb : bef y x
    · simp only [insertEntry, if_pos hb, List.mem_cons, ih]
      tauto
    · simp only [insertEntry, if_neg hb, List.mem_cons]

theorem mem_stableSort {α : Type} {bef : α → α → Bool} {z : α} {l : List α} :
    z ∈ stableSort bef l ↔ z ∈ l := by
  induction l with
  | nil => simp [stableSort]
  | cons x xs ih => simp [stableSort, mem_insertEntry, ih]

theorem pairwise_insertEntry {α : Type} {bef : α → α → Bool} {x : α} {l : List α}
    (hasym : ∀ y ∈ l, bef y x = true → bef x y = false)
    (htrans : ∀ z ∈ l, ∀ y ∈ l, bef z y = false → bef y x = false → bef z x = false)
    (hl : List.Pairwise (fun a b => bef b a = false) l) :
    List.Pairwise (fun a b => bef b a = false) (insertEntry bef x l) := by
  induction l with
  | nil => simp [insertEntry]
  | cons y ys ih =>
    rcases List.pairwise_cons.mp hl with ⟨hy, hys⟩
    by_cases hb : bef y x
    · rw [insertEntry, if_pos hb]
      refine List.pairwise_cons.mpr ⟨?_, ?_⟩
      · intro z hz
        rcases mem_insertEntry.mp hz with rfl | hz'
        · exact hasym y (List.mem_cons_self _ _) hb
        · exact hy z hz'
      · exact ih
          (fun y' h' => hasym y' (List.mem_cons_of_mem _ h'))
          (fun z hz y' hy' => htrans z (List.mem_cons_of_mem _ hz) y' (List.mem_cons_of_mem _ hy'))
          hys
    · rw [insertEntry, if_neg hb]
      have hb' : bef y x = false := by simpa using hb
      refine List.pairwise_cons.mpr ⟨?_, hl⟩
      intro z hz
      rcases List.mem_cons.mp hz with rfl | hz'
      · exact hb'
      · exact htrans z (List.mem_cons_of_mem _ hz') y (List.mem_cons_self _ _) (hy z hz') hb'

theorem pairwise_stableSort {α : Type} {bef : α → α → Bool} {l : List α}
    (hasym : ∀ x ∈ l, ∀ y ∈ l, bef y x = true → bef x y = false)
    (htrans : ∀ z ∈ l, ∀ y ∈ l, ∀ x ∈ l, bef z y = false → bef y x = false → bef z x = false) :
    List.Pairwise (fun a b => bef b a = false) (stableSort bef l) := by
  induction l with
  | nil => simp [stableSort]
  | cons x xs ih =>
    rw [stableSort]
    apply pairwise_insertEntry
    · intro y hy hxy
      have hy' : y ∈ xs := mem_stableSort.mp hy
      exact hasym x (List.mem_cons_self _ _) y (List.mem_cons_of_mem _ hy') hxy
    · intro z hz y hy hzy hyx
      have hz' : z ∈ xs := mem_stableSort.mp hz
      have hy' : y ∈ xs := mem_stableSort.mp hy
      exact htrans z (List.mem_cons_of_mem _ hz') y (List.mem_cons_of_mem _ hy')
        x (List.mem_cons_self _ _) hzy hyx
    · exact ih
        (fun a ha b hb => hasym a (List.mem_cons_of_mem _ ha) b (List.mem_cons_of_mem _ hb))
        (fun a ha b hb c hc => htrans a (List.mem_cons_of_mem _ ha) b (List.mem_cons_of_mem _ hb)
          c (List.mem_cons_of_mem _ hc))

theorem filter_insertEntry {α : Type} {bef : α → α → Bool} {p : α → Bool} {x : α} {l : List α}
    (hp : p x = true → ∀ y ∈ l, bef y x = true → p y = false) :
    (insertEntry bef x l).filter p = (x :: l).filter p := by
  induction l with
  | nil => rfl
  | cons y ys ih =>
    by_cases hb : bef y x
    · rw [insertEntry, if_pos hb]
      have ih' := ih (fun hx y' hy' hb' => hp hx y' (List.mem_cons_of_mem _ hy') hb')
      by_cases hpx : p x = true
      · have hpy : p y = false := hp hpx y (List.mem_cons_self _ _) hb
        simp [List.filter_cons, hpy, hpx, ih']
      · have hpx' : p x = false := by simpa using hpx
        simp [List.filter_cons, hpx', ih']
    · rw [insertEntry, if_neg hb]

theorem filter_stableSort {α : Type} {bef : α → α → Bool} {p : α → Bool} {l : List α}
    (hp : ∀ x ∈ l, ∀ y ∈ l, p x = true → bef y x = true → p y = false) :
    (stableSort bef l).filter p = l.filter p := by
  induction l with
  | nil => rfl
  | cons x xs ih =>
    rw [stableSort, filter_insertEntry, List.filter_cons, List.filter_cons]
    · rw [ih (fun a ha b hb => hp a (List.mem_cons_of_mem _ ha) b (List.mem_cons_of_mem _ hb))]
    · intro hx y hy hb
      exact hp x (List.mem_cons_self _ _) y (List.mem_cons_of_mem _ (mem_stableSort.mp hy)) hx hb

/-- Sentence-terminal characters of the split regex `[.!?]+`. -/
def isTerminal (c : Char) : Bool := c = '.' || c = '!' || c = '?'

/-- Whitespace removed by JS `String.prototype.trim` (the common cases). -/
def isJsSpace (c : Char) : Bool := c = ' ' || c = '\t' || c = '\n' || c = '\r'

/-- JS `s.trim()`: strip whitespace from both ends. -/
def trim (s : List Char) : List Char :=
  ((s.dropWhile isJsSpace).reverse.dropWhile isJsSpace).reverse

theorem length_trim_le (s : List Char) : (trim s).length ≤ s.length := by
  unfold trim
  rw [List.length_reverse]
  calc ((s.dropWhile isJsSpace).reverse.dropWhile isJsSpace).length
      ≤ (s.dropWhile isJsSpace).reverse.length := (List.dropWhile_sublist _).length_le
    _ = (s.dropWhile isJsSpace).length := List.length_reverse _
    _ ≤ s.length := (List.dropWhile_sublist _).length_le

/-- Splits `text` at every sentence-terminal character (`acc` holds the current
piece reversed). JS splits on the regex `[.!?]+`; splitting at each single
terminal instead yields extra empty pieces between consecutive terminals, and
the trim-filter in `sentencesOf` removes exactly those, so the two agree after
filtering. -/
def splitTerminals (acc : List Char) : List Char → List (List Char)
  | [] => [acc.reverse]
  | c :: cs =>
    if isTerminal c then acc.reverse :: splitTerminals [] cs else splitTerminals (c :: acc) cs

/-- Sentence list of `chunkText`: `text.split(/[.!?]+/).filter(s => s.trim())`
(a string is truthy exactly when non-empty). -/
def sentencesOf (text : List Char) : List (List Char) :=
  (splitTerminals [] text).filter (fun s => !(trim s).isEmpty)

/-- Separator added by `currentChunk += '. ' + sentence`. -/
def sepJoin : List Char := ['.', ' ']

/-- Greedy packing loop of `chunkText`: `cur` is `currentChunk`; when appending
the next sentence would exceed `maxSize` and `cur` is non-empty, `cur.trim()`
is flushed and the sentence starts a new buffer; otherwise the sentence is
joined onto `cur` with `'. '`. -/
def chunkLoop (maxSize : Nat) : List Char → List (List Char) → List (List Char)
  | cur, [] => if cur = [] then [] else [trim cur]
  | cur, s :: rest =>
    if cur.length + s.length > maxSize ∧ cur ≠ [] then
      trim cur :: chunkLoop maxSize s rest
    else
      chunkLoop maxSize (if cur = [] then s else cur ++ sepJoin ++ s) rest

/-- Memflix.chunkText: split into sentences, greedily pack with `'. '` joins,
flush on overflow; `maxSize` defaults to `config.maxChunkSize = 1500`. -/
def chunkText (text : List Char) (maxSize : Nat := 1500) : List (List Char) :=
  chunkLoop maxSize [] (sentencesOf text)

theorem chunkLoop_bound {maxSize : Nat} {S : List (List Char)} :
    ∀ (ss : List (List Char)) (cur : List Char),
      (∀ s ∈ ss, s ∈ S) →
      (cur = [] ∨ cur.length ≤ maxSize + 2 ∨ cur ∈ S) →
      ∀ c ∈ chunkLoop maxSize cur ss, c.length ≤ maxSize + 2 ∨ ∃ s ∈ S, c = trim s := by
  intro ss
  induction ss with
  | nil =>
    intro cur hss hcur c hc
    rw [chunkLoop] at hc
    by_cases h0 : cur = []
    · simp [h0] at hc
    · rw [if_neg h0] at hc
      rcases List.mem_singleton.mp hc with rfl
      rcases hcur with rfl | hlen | hmem
      · exact absurd rfl h0
      · exact Or.inl (le_trans (length_trim_le cur) hlen)
      · exact Or.inr ⟨cur, hmem, rfl⟩
  | cons s rest ih =>
    intro cur hss hcur c hc
    rw [chunkLoop] at hc
    by_cases hcond : cur.length + s.length > maxSize ∧ cur ≠ []
    · rw [if_pos hcond] at hc
      rcases List.mem_cons.mp hc with rfl | hc'
      · rcases hcur with rfl | hlen | hmem
        · exact absurd rfl hcond.2
        · exact Or.inl (le_trans (length_trim_le cur) hlen)
        · exact Or.inr ⟨cur, hmem, rfl⟩
      · exact ih s (fun t ht => hss t (List.mem_cons_of_mem _ ht))
          (Or.inr (Or.inr (hss s (List.mem_cons_self _ _)))) c hc'
    · rw [if_neg hcond] at hc
      by_cases h0 : cur = []
      · rw [if_pos h0] at hc
        exact ih s (fun t ht => hss t (List.mem_cons_of_mem _ ht))
          (Or.inr (Or.inr (hss s (List.mem_cons_self _ _)))) c hc
      · rw [if_neg h0] at hc
        have hle : cur.length + s.length ≤ maxSize := by
          by_contra hgt
          exact hcond ⟨Nat.lt_of_not_le hgt, h0⟩
        have hlen : (cur ++ sepJoin ++ s).length ≤ maxSize + 2 := by
          simp only [List.length_append, sepJoin]
          simp only [List.length_cons, List.length_nil]
          omega
        exact ih (cur ++ sepJoin ++ s) (fun t ht => hss t (List.mem_cons_of_mem _ ht))
          (Or.inr (Or.inl hlen)) c hc

theorem chunkText_bound (text : List Char) (maxSize : Nat) :
    ∀ c ∈ chunkText text maxSize,
      c.length ≤ maxSize + 2 ∨ ∃ s ∈ sentencesOf text, c = trim s :=
  chunkLoop_bound (sentencesOf text) [] (fun _ h => h) (Or.inl rfl)

/-- Metadata value of a chunk record (`metadata` is a JSON-like object). -/
inductive JsVal where
  | str (s : List Char)
  | num (n : ℤ)
deriving DecidableEq, Repr

/-- Chunk record `{id, text, metadata}` stored in the Chunk Index and carried
by each QR frame payload. -/
structure ChunkData where
  id : String
  text : List Char
  metadata : List (String × JsVal)
deriving DecidableEq, Repr

/-- In-memory state of a Memflix instance: the Chunk Index `index` (an
insertion-ordered JS `Map`), the packed embeddings buffer (`none` models the
initial JS `null`), the id→offset map `embeddingIndex`, and
`config.embeddingDim`. -/
structure MemflixState where
  index : List (String × ChunkData)
  embeddings : Option (List ℚ)
  embeddingIndex : List (String × Nat)
  embeddingDim : Nat
deriving DecidableEq, Repr

/-- Constructor state: empty index, `embeddings = null`, default dimension 384. -/
def initState : MemflixState :=
  { index := [], embeddings := none, embeddingIndex := [], embeddingDim := 384 }

/-- Memflix.storeEmbedding: on the first call the buffer is created empty and
`config.embeddingDim` is set to the length of that first vector; every call
appends the vector and records its offset — the source performs no dimension
check and cannot fail. -/
def storeEmbedding (st : MemflixState) (chunkId : String) (embedding : List ℚ) : MemflixState :=
  let buf := st.embeddings.getD []
  let dim := match st.embeddings with
    | none => embedding.length
    | some _ => st.embeddingDim
  { st with
    embeddings := some (buf ++ embedding)
    embeddingIndex := mapSet chunkId buf.length st.embeddingIndex
    embeddingDim := dim }

/-- Memflix.getEmbedding: `null` when no offset is recorded, otherwise the
slice `embeddings.slice(offset, offset + embeddingDim)` (JS slice clamps at
the end of the buffer). -/
def getEmbedding (st : MemflixState) (chunkId : String) : Option (List ℚ) :=
  match mapGet chunkId st.embeddingIndex with
  | none => none
  | some offset => some (((st.embeddings.getD []).drop offset).take st.embeddingDim)

/-- Magnitude squared `a.reduce((sum, ai) => sum + ai * ai, 0)`. -/
def sumSq (a : List ℚ) : ℚ := a.foldl (fun sum ai => sum + ai * ai) 0

/-- Dot product `a.reduce((sum, ai, i) => sum + ai * b[i], 0)`, meaningful when
`b` is at least as long as `a`. -/
def dotProduct (a b : List ℚ) : ℚ := (List.zipWith (· * ·) a b).foldl (· + ·) 0

/-- Memflix.cosineSimilarity `dot/(√(Σaᵢ²)·√(Σbᵢ²))` over exact rationals.
`none` models a non-finite JS result: when either magnitude is 0 the quotient
is `0/0 = NaN` (with exact arithmetic a zero magnitude forces `dot = 0`), and
when `b` is shorter than `a` the reduction reads `b[i] = undefined`, poisoning
the sum to NaN. Otherwise the finite value `dot/√(Σaᵢ²·Σbᵢ²)` is represented
exactly as a `SimVal`. -/
def cosineSimilarity (a b : List ℚ) : Option SimVal :=
  if a.length ≤ b.length then
    if sumSq a = 0 ∨ sumSq b = 0 then none
    else some ⟨dotProduct a b, sumSq a * sumSq b⟩
  else none

/-- Entry of the `similarities` array built by `search`. -/
structure SimEntry where
  chunkId : String
  similarity : Option SimVal
  chunk : ChunkData
deriving DecidableEq, Repr

/-- Result record of `search`: `{text, metadata, similarity}`. -/
structure SearchResult where
  text : List Char
  metadata : List (String × JsVal)
  similarity : Option SimVal
deriving DecidableEq, Repr

/-- Strict order induced by the sort comparator of `search`: JS sorts with
`(a,b) => b.similarity - a.similarity` and places `a` strictly before `b` when
that difference is negative; ECMA-262 treats a NaN comparator result as 0, so
a NaN similarity is never strictly before or after anything. -/
def simBefore (x y : Option SimVal) : Bool :=
  match x, y with
  | some a, some b => !simValLe a b
  | _, _ => false

/-- Comparator order lifted to `similarities` entries. -/
def entryBefore (a b : SimEntry) : Bool := simBefore a.similarity b.similarity

/-- JS `array.slice(0, limit)`: a non-negative `limit` takes `min limit length`
elements; a negative `limit` resolves to end position `length + limit`,
clamped at 0. -/
def jsSliceTo {α : Type} (l : List α) (limit : ℤ) : List α :=
  if 0 ≤ limit then l.take limit.toNat
  else l.take ((l.length : ℤ) + limit).toNat

/-- Candidate similarity list of Memflix.search: all index entries (restricted
by the predicate when one is supplied), each scored against the query vector,
with score 0 when no stored vector exists for the id. -/
def searchSimilarities (st : MemflixState) (queryVector : List ℚ)
    (pred : Option (ChunkData → Bool)) : List SimEntry :=
  let candidates := match pred with
    | some f => st.index.filter (fun (p : String × ChunkData) => f p.2)
    | none => st.index
  candidates.map (fun (p : String × ChunkData) =>
    { chunkId := p.1
      similarity := match getEmbedding st p.1 with
        | some e => cosineSimilarity queryVector e
        | none => some ⟨0, 1⟩
      chunk := p.2 })

/-- Memflix.search with the query's embedding supplied directly (the embedding
provider is an external capability): score all candidates, sort stably by
descending similarity, truncate with `slice(0, limit)` (default 10), and
project to `{text, metadata, similarity}` records. -/
def search (st : MemflixState) (queryVector : List ℚ) (limit : ℤ)
    (pred : Option (ChunkData → Bool)) : List SearchResult :=
  (jsSliceTo (stableSort entryBefore (searchSimilarities st queryVector pred)) limit).map
    (fun e => { text := e.chunk.text, metadata := e.chunk.metadata, similarity := e.similarity })

theorem foldl_sq_ge (a : List ℚ) : ∀ q : ℚ, q ≤ a.foldl (fun s x => s + x * x) q := by
  induction a with
  | nil => intro q; exact le_refl q
  | cons x xs ih =>
    intro q
    calc q ≤ q + x * x := le_add_of_nonneg_right (mul_self_nonneg x)
      _ ≤ (x :: xs).foldl (fun s x => s + x * x) q := by simpa using ih (q + x * x)

theorem sumSq_nonneg (a : List ℚ) : 0 ≤ sumSq a := foldl_sq_ge a 0

theorem cosineSimilarity_den_pos {a b : List ℚ} {v : SimVal}
    (h : cosineSimilarity a b = some v) : 0 < v.den := by
  unfold cosineSimilarity at h
  by_cases hlen : a.length ≤ b.length
  · rw [if_pos hlen] at h
    by_cases hz : sumSq a = 0 ∨ sumSq b = 0
    · rw [if_pos hz] at h; exact absurd h (by simp)
    · rw [if_neg hz] at h
      push_neg at hz
      have ha := lt_of_le_of_ne (sumSq_nonneg a) (Ne.symm hz.1)
      have hb := lt_of_le_of_ne (sumSq_nonneg b) (Ne.symm hz.2)
      have := mul_pos ha hb
      cases h
      simpa using this
  · rw [if_neg hlen] at h; exact absurd h (by simp)

theorem simEntry_den_pos {st : MemflixState} {qv : List ℚ} {pred : Option (ChunkData → Bool)}
    {e : SimEntry} (he : e ∈ searchSimilarities st qv pred)
    {v : SimVal} (hv : e.similarity = some v) : 0 < v.den := by
  unfold searchSimilarities at he
  rcases List.mem_map.mp he with ⟨p, hp, rfl⟩
  simp only at hv
  rcases hemb : getEmbedding st p.1 with _ | emb
  · rw [hemb] at hv
    simp at hv
    rw [← hv]
    norm_num
  · rw [hemb] at hv
    exact cosineSimilarity_den_pos hv

theorem entryBefore_asym {x y : SimEntry} {vx vy : SimVal}
    (hx : x.similarity = some vx) (hy : y.similarity = some vy)
    (h : entryBefore y x = true) : entryBefore x y = false := by
  unfold entryBefore simBefore at h ⊢
  rw [hy, hx] at h
  rw [hx, hy]
  have h' : simValLe vy vx = false := by simpa using h
  rcases simValLe_total vx vy with ht | ht
  · simp [ht]
  · rw [ht] at h'; exact absurd h' (by simp)

theorem entryBefore_trans {x y z : SimEntry} {vx vy vz : SimVal}
    (hx : x.similarity = some vx) (hy : y.similarity = some vy) (hz : z.similarity = some vz)
    (dx : 0 < vx.den) (dy : 0 < vy.den) (dz : 0 < vz.den)
    (h1 : entryBefore z y = false) (h2 : entryBefore y x = false) :
    entryBefore z x = false := by
  unfold entryBefore simBefore at h1 h2 ⊢
  rw [hz, hy] at h1
  rw [hy, hx] at h2
  rw [hz, hx]
  have l1 : simValLe vz vy = true := by simpa using h1
  have l2 : simValLe vy vx = true := by simpa using h2
  have := simValLe_trans dz dy dx l1 l2
  simp [this]

/-- Input of Memflix.generateId: the JS expression `chunk + offset + i`
concatenates the chunk text with the two decimal numbers. -/
def idInput (chunk : List Char) (offset i : Nat) : List Char :=
  chunk ++ (toString offset).toList ++ (toString i).toList

/-- Inner loop of Memflix.processBatch (the MD5-based `generateId` and the
embedding provider are external, supplied as oracles `hashFn` and `embedder`):
each chunk is recorded in the index under its generated id with
`{...metadata, index: offset + i}`, and its embedding is stored. -/
def processBatchGo (embedder : List Char → List ℚ) (hashFn : List Char → String)
    (metadata : List (String × JsVal)) (offset : Nat) :
    MemflixState → Nat → List (List Char) → MemflixState × List String
  | st, _, [] => (st, [])
  | st, i, chunk :: rest =>
    let chunkId := hashFn (idInput chunk offset i)
    let cd : ChunkData := ⟨chunkId, chunk, mapSet "index" (JsVal.num (offset + i)) metadata⟩
    let st1 := { st with index := mapSet chunkId cd st.index }
    let st2 := storeEmbedding st1 chunkId (embedder chunk)
    let next := processBatchGo embedder hashFn metadata offset st2 (i + 1) rest
    (next.1, chunkId :: next.2)

/-- Batch loop of Memflix.processText, stepping `offset` by `batchSize`. The
JS `for` loop never terminates when `batchSize ≤ 0` (the default is 100); the
model returns the state unchanged in that unreachable configuration. -/
def processTextLoop (embedder : List Char → List ℚ) (hashFn : List Char → String)
    (batchSize : Nat) (metadata : List (String × JsVal)) :
    MemflixState → Nat → List (List Char) → MemflixState × List String
  | st, _, [] => (st, [])
  | st, offset, c :: rest =>
    if h : batchSize = 0 then (st, [])
    else
      let r1 := processBatchGo embedder hashFn metadata offset st 0 ((c :: rest).take batchSize)
      let r2 := processTextLoop embedder hashFn batchSize metadata r1.1 (offset + batchSize)
        ((c :: rest).drop batchSize)
      (r2.1, r1.2 ++ r2.2)
termination_by st offset chunks => chunks.length
decreasing_by simp [List.length_drop]; omega

/-- Memflix.processText: chunk the text (default `maxChunkSize` 1500), then
ingest the chunks in batches of `batchSize` (default 100), returning the new
state and the chunk ids. -/
def processText (embedder : List Char → List ℚ) (hashFn : List Char → String)
    (st : MemflixState) (text : List Char) (metadata : List (String × JsVal))
    (maxSize : Nat := 1500) (batchSize : Nat := 100) : MemflixState × List String :=
  processTextLoop embedder hashFn batchSize metadata st 0 (chunkText text maxSize)

/-- Contents of the sidecar embedding file written by saveEmbeddings (the JSON
additionally records `useOllama`, which never flows back into state). -/
structure Sidecar where
  embeddings : List ℚ
  index : List (String × Nat)
  embeddingDim : Nat
deriving DecidableEq, Repr

/-- Failure internal to the encode path. -/
inductive EncodeError where
  | nullEmbeddings
deriving DecidableEq, Repr

/-- Memflix.saveEmbeddings: serialize the vector store to the sidecar file;
`Array.from(this.embeddings)` throws a TypeError when the buffer is still the
initial `null`, the only failure internal to this function. -/
def saveEmbeddings (st : MemflixState) : Except EncodeError Sidecar :=
  match st.embeddings with
  | none => .error .nullEmbeddings
  | some buf => .ok ⟨buf, st.embeddingIndex, st.embeddingDim⟩

/-- Frame payloads produced by encodeToVideo: one QR frame per Chunk Index
entry, in insertion order, carrying the JSON `{id, text, metadata}`; QR
rendering and video muxing are external, so a frame is modelled by its payload
record. -/
def encodeFrames (st : MemflixState) : List ChunkData := st.index.map Prod.snd

/-- Return value of encodeToVideo, `{videoPath, embeddingPath, totalChunks}`,
with the written artifacts modelled by their contents. -/
structure EncodeResult where
  frames : List ChunkData
  sidecar : Sidecar
  totalChunks : Nat
deriving DecidableEq, Repr

/-- Memflix.encodeToVideo: write the sidecar (a failure there aborts the
call), then emit one frame per index entry in insertion order and return
`totalChunks = index.size`. -/
def encodeToVideo (st : MemflixState) : Except EncodeError EncodeResult :=
  match saveEmbeddings st with
  | .error e => .error e
  | .ok sc => .ok ⟨encodeFrames st, sc, st.index.length⟩

/-- Outcome of reading one extracted frame: the QR scan may find no code
(`noQR`, logged and skipped), the payload may fail `JSON.parse`
(`badPayload`, logged and skipped), or it parses to a chunk record. -/
inductive FrameRead where
  | noQR
  | badPayload
  | ok (c : ChunkData)
deriving DecidableEq, Repr

/-- Failures of the two external effects of the decode path. -/
inductive DecodeError where
  | sidecarLoadFailed
  | extractFailed
deriving DecidableEq, Repr

/-- Memflix.loadEmbeddings: replace the vector store wholesale from the
sidecar contents. -/
def loadEmbeddings (st : MemflixState) (sc : Sidecar) : MemflixState :=
  { st with
    embeddings := some sc.embeddings
    embeddingIndex := sc.index
    embeddingDim := sc.embeddingDim }

/-- Frame-ingestion loop of decodeFromVideo: walk the extracted frames in
order; every parsed record is written to the (already cleared) index with
`Map.set` keyed by its `id`, counting successfully decoded frames. -/
def ingestFrames : List FrameRead → List (String × ChunkData) → Nat →
    List (String × ChunkData) × Nat
  | [], idx, n => (idx, n)
  | .ok c :: fs, idx, n => ingestFrames fs (mapSet c.id c idx) (n + 1)
  | .noQR :: fs, idx, n => ingestFrames fs idx n
  | .badPayload :: fs, idx, n => ingestFrames fs idx n

/-- Observable outcome of decodeFromVideo: the call returns
`{totalChunks: index.size}`; the successfully-decoded count and the number of
frames examined appear in the log line only. -/
structure DecodeResult where
  totalChunks : Nat
  decodedCount : Nat
  framesExamined : Nat
deriving DecidableEq, Repr

/-- Memflix.decodeFromVideo with its two external effects passed as
`Except`-valued inputs, in source order: load the sidecar (a failure
propagates with the state untouched), extract the frames (a failure
propagates after the vector store was already replaced), and only then clear
the Chunk Index and ingest the frames. The returned state is the instance
state after the call, also when it throws. -/
def decodeFromVideo (st : MemflixState) (sidecar : Except DecodeError Sidecar)
    (frames : Except DecodeError (List FrameRead)) :
    MemflixState × Except DecodeError DecodeResult :=
  match sidecar with
  | .error e => (st, .error e)
  | .ok sc =>
    let st1 := loadEmbeddings st sc
    match frames with
    | .error e => (st1, .error e)
    | .ok fr =>
      let r := ingestFrames fr [] 0
      ({ st1 with index := r.1 }, .ok ⟨r.1.length, r.2, fr.length⟩)

/-- Well-formedness of a `Map`-backed chunk index as the code builds it: every
record is stored under its own id, and keys are unique. -/
def wfIndex (idx : List (String × ChunkData)) : Prop :=
  (∀ p ∈ idx, p.2.id = p.1) ∧ (idx.map Prod.fst).Nodup

/-- Frame reads that represent a successfully decoded chunk. -/
def isOkFrame : FrameRead → Bool
  | .ok _ => true
  | _ => false

theorem ingestFrames_all_ok (entries : List (String × ChunkData)) :
    ∀ (acc : List (String × ChunkData)) (n : Nat),
      (∀ p ∈ entries, p.2.id = p.1) →
      (entries.map Prod.fst).Nodup →
      (∀ k ∈ entries.map Prod.fst, k ∉ acc.map Prod.fst) →
      ingestFrames (entries.map (fun p => FrameRead.ok p.2)) acc n =
        (acc ++ entries, n + entries.length) := by
  induction entries with
  | nil => intro acc n _ _ _; simp [ingestFrames]
  | cons p rest ih =>
    intro acc n hid hnd hdisj
    rcases p with ⟨k, c⟩
    have hck : c.id = k := hid (k, c) (List.mem_cons_self _ _)
    have hkacc : k ∉ acc.map Prod.fst := hdisj k (by simp)
    have hknd : k ∉ rest.map Prod.fst := by
      have := hnd
      simp only [List.map_cons, List.nodup_cons] at this
      exact this.1
    simp only [List.map_cons, ingestFrames]
    rw [hck, mapSet_of_not_mem hkacc]
    rw [ih (acc ++ [(k, c)]) (n + 1)
      (fun q hq => hid q (List.mem_cons_of_mem _ hq))
      (by
        have := hnd
        simp only [List.map_cons, List.nodup_cons] at this
        exact this.2)
      (by
        intro k' hk'
        simp only [List.map_append, List.mem_append, List.map_cons, List.map_nil,
          List.mem_singleton]
        push_neg
        refine ⟨fun hin => hdisj k' (by simp [hk']) hin, ?_⟩
        intro hkk
        subst hkk
        exact hknd hk')]
    simp only [List.append_assoc, List.singleton_append, Prod.mk.injEq, true_and,
      List.length_cons]
    omega

theorem ingestFrames_mem (frames : List FrameRead) :
    ∀ (acc : List (String × ChunkData)) (n : Nat), ∀ p ∈ (ingestFrames frames acc n).1,
      p ∈ acc ∨ (FrameRead.ok p.2 ∈ frames ∧ p.2.id = p.1) := by
  induction frames with
  | nil => intro acc n p hp; exact Or.inl hp
  | cons f fs ih =>
    intro acc n p hp
    cases f with
    | ok c =>
      rw [show ingestFrames (FrameRead.ok c :: fs) acc n
          = ingestFrames fs (mapSet c.id c acc) (n + 1) from rfl] at hp
      rcases ih (mapSet c.id c acc) (n + 1) p hp with h | h
      · rcases mem_mapSet h with rfl | h'
        · exact Or.inr ⟨List.mem_cons_self _ _, rfl⟩
        · exact Or.inl h'
      · exact Or.inr ⟨List.mem_cons_of_mem _ h.1, h.2⟩
    | noQR =>
      rcases ih acc n p hp with h | h
      · exact Or.inl h
      · exact Or.inr ⟨List.mem_cons_of_mem _ h.1, h.2⟩
    | badPayload =>
      rcases ih acc n p hp with h | h
      · exact Or.inl h
      · exact Or.inr ⟨List.mem_cons_of_mem _ h.1, h.2⟩

theorem ingestFrames_keys_mono (frames : List FrameRead) :
    ∀ (acc : List (String × ChunkData)) (n : Nat) (k : String),
      k ∈ acc.map Prod.fst → k ∈ (ingestFrames frames acc n).1.map Prod.fst := by
  induction frames with
  | nil => intro acc n k hk; exact hk
  | cons f fs ih =>
    intro acc n k hk
    cases f with
    | ok c => exact ih (mapSet c.id c acc) (n + 1) k (keys_mem_mapSet c.id c hk)
    | noQR => exact ih acc n k hk
    | badPayload => exact ih acc n k hk

theorem ingestFrames_keys (frames : List FrameRead) :
    ∀ (acc : List (String × ChunkData)) (n : Nat) (c : ChunkData),
      FrameRead.ok c ∈ frames → c.id ∈ (ingestFrames frames acc n).1.map Prod.fst := by
  induction frames with
  | nil => intro acc n c hc; simp at hc
  | cons f fs ih =>
    intro acc n c hc
    cases f with
    | ok c' =>
      rcases List.mem_cons.mp hc with heq | htail
      · cases heq
        exact ingestFrames_keys_mono fs _ _ _ (self_mem_keys_mapSet c.id c acc)
      · exact ih (mapSet c'.id c' acc) (n + 1) c htail
    | noQR =>
      rcases List.mem_cons.mp hc with heq | htail
      · cases heq
      · exact ih acc n c htail
    | badPayload =>
      rcases List.mem_cons.mp hc with heq | htail
      · cases heq
      · exact ih acc n c htail

theorem ingestFrames_count (frames : List FrameRead) :
    ∀ (acc : List (String × ChunkData)) (n : Nat),
      (ingestFrames frames acc n).2 = n + (frames.filter isOkFrame).length := by
  induction frames with
  | nil => intro acc n; simp [ingestFrames]
  | cons f fs ih =>
    intro acc n
    cases f with
    | ok c =>
      rw [show ingestFrames (FrameRead.ok c :: fs) acc n
          = ingestFrames fs (mapSet c.id c acc) (n + 1) from rfl]
      rw [ih (mapSet c.id c acc) (n + 1)]
      simp [List.filter_cons, isOkFrame]
      omega
    | noQR =>
      rw [show ingestFrames (FrameRead.noQR :: fs) acc n = ingestFrames fs acc n from rfl]
      rw [ih acc n]
      simp [List.filter_cons, isOkFrame]
    | badPayload =>
      rw [show ingestFrames (FrameRead.badPayload :: fs) acc n
          = ingestFrames fs acc n from rfl]
      rw [ih acc n]
      simp [List.filter_cons, isOkFrame]

/-- Chunk record with the given id and that id's characters as text, used in
the concrete example stores below. -/
def exampleChunk (nm : String) : ChunkData := ⟨nm, nm.toList, []⟩

/-- Store of the spec's similarity-ranking example: chunks under ids a, b, c
inserted in that order with vectors `[1,0]`, `[0,1]`, `[1,0]` (dimension 2). -/
def rankState : MemflixState :=
  { index := [("a", exampleChunk "a"), ("b", exampleChunk "b"), ("c", exampleChunk "c")]
    embeddings := some [1, 0, 0, 1, 1, 0]
    embeddingIndex := [("a", 0), ("b", 2), ("c", 4)]
    embeddingDim := 2 }

/-- Store with two indexed chunks and no stored vectors (both score 0 in
search). -/
def twoCandState : MemflixState :=
  { index := [("a", exampleChunk "a"), ("b", exampleChunk "b")]
    embeddings := none
    embeddingIndex := []
    embeddingDim := 384 }

/-- Descending comparison of two similarity values, both finite. -/
def simGe (x y : Option SimVal) : Prop :=
  ∃ vx vy, x = some vx ∧ y = some vy ∧ simValLe vy vx = true

/-- Entries whose similarity ties (is value-equal) with `v`. -/
def tieWith (v : SimVal) (e : SimEntry) : Bool :=
  match e.similarity with
  | some w => simValLe w v && simValLe v w
  | none => false

/-- Store with a non-null embeddings buffer but an empty Chunk Index. -/
def embOnlyState : MemflixState :=
  { index := [], embeddings := some [1], embeddingIndex := [("a", 0)], embeddingDim := 1 }

/-- Frames carrying two successfully decodable records with the same id. -/
def dupFrames : List FrameRead :=
  [FrameRead.ok ⟨"x", ['t'], []⟩, FrameRead.ok ⟨"x", ['u'], []⟩]

/-- C1. The spec claims `cosineSimilarity` returns 0 when either magnitude is
0; the source computes `dot/(magA*magB)` with no guard, which is the JS NaN
(`none` in the model, and in particular not the zero similarity `⟨0, 1⟩` that
`search` uses for missing vectors), on the concrete equal-length input
`a = b = [0]`. -/
theorem C1_counterexample :
    cosineSimilarity [(0 : ℚ)] [(0 : ℚ)] = none ∧
      cosineSimilarity [(0 : ℚ)] [(0 : ℚ)] ≠ some ⟨0, 1⟩ := by
  constructor <;> simp [cosineSimilarity, sumSq]

/-- C1 (amended). Whenever either vector has magnitude 0, `cosineSimilarity`
returns NaN (`none`), not 0: the division `0/0` has no zero-magnitude guard,
so ranking totality relies on the JS sort treating a NaN comparator result
as 0 rather than on this function. -/
theorem C1_amended (a b : List ℚ) (h : sumSq a = 0 ∨ sumSq b = 0) :
    cosineSimilarity a b = none := by
  unfold cosineSimilarity
  rcases h with h | h <;> simp [h]

/-- C1 witness: concrete vectors with a zero-magnitude second argument. -/
theorem C1_witness :
    sumSq [(0 : ℚ), 0] = 0 ∧ cosineSimilarity [(1 : ℚ), 0] [(0 : ℚ), 0] = none :=
  ⟨by norm_num [sumSq], C1_amended [1, 0] [0, 0] (Or.inr (by norm_num [sumSq]))⟩

/-- C2. The claim bounds every multi-sentence chunk by `maxSize`, but the `'.
'` join is appended after the size check, so two sentences of 5 characters
each pack into a 12-character chunk under `maxSize = 10`: the emitted chunk
exceeds `maxSize` yet is not a single sentence (the sentence split of the
input has two sentences and the chunk is the trim of neither). -/
theorem C2_counterexample :
    chunkText ("aaaaa.bbbbb".toList) 10 = ["aaaaa. bbbbb".toList] ∧
      ("aaaaa. bbbbb".toList).length = 12 ∧
      sentencesOf ("aaaaa.bbbbb".toList) = ["aaaaa".toList, "bbbbb".toList] ∧
      trim ("aaaaa".toList) ≠ "aaaaa. bbbbb".toList ∧
      trim ("bbbbb".toList) ≠ "aaaaa. bbbbb".toList := by
  refine ⟨?_, ?_, ?_, ?_, ?_⟩ <;> decide

/-- C2 (amended). Every chunk emitted by `chunkText(text, maxSize)` has length
at most `maxSize + 2` — the 2-character `'. '` separator is added after the
size check, so a multi-sentence chunk can overflow by exactly that much —
except a chunk that is the trim of a single sentence, which alone may have any
length. -/
theorem C2_amended (text : List Char) (maxSize : Nat) :
    ∀ c ∈ chunkText text maxSize,
      c.length ≤ maxSize + 2 ∨ ∃ s ∈ sentencesOf text, c = trim s :=
  chunkText_bound text maxSize

/-- C2 witness: the two-sentence chunk of the counterexample input satisfies
the amended bound with `maxSize = 10`. -/
theorem C2_witness :
    "aaaaa. bbbbb".toList ∈ chunkText ("aaaaa.bbbbb".toList) 10 ∧
      (("aaaaa. bbbbb".toList).length ≤ 10 + 2 ∨
        ∃ s ∈ sentencesOf ("aaaaa.bbbbb".toList), "aaaaa. bbbbb".toList = trim s) :=
  ⟨by decide, C2_amended ("aaaaa.bbbbb".toList) 10 _ (by decide)⟩

/-- C3. The spec claims a second `put` whose vector length differs from the
established dimension fails with `DimensionMismatch` and leaves the store
unchanged; `storeEmbedding` performs no dimension check: after storing a
3-vector, storing a 4-vector succeeds, appends it to the buffer, and records
its offset, while `embeddingDim` stays 3. -/
theorem C3_counterexample :
    storeEmbedding (storeEmbedding initState "a" [1, 2, 3]) "b" [1, 2, 3, 4] =
      { index := []
        embeddings := some [1, 2, 3, 1, 2, 3, 4]
        embeddingIndex := [("a", 0), ("b", 3)]
        embeddingDim := 3 } := by
  simp [storeEmbedding, initState, mapSet]

/-- C3 (amended). Once a buffer exists, `storeEmbedding` accepts a vector of
any length without error: it appends the vector, records its offset at the old
buffer end, and leaves the established dimension unchanged; no
`DimensionMismatch` failure exists in the source. -/
theorem C3_amended (st : MemflixState) (chunkId : String) (embedding buf : List ℚ)
    (h : st.embeddings = some buf) :
    (storeEmbedding st chunkId embedding).embeddings = some (buf ++ embedding) ∧
      (storeEmbedding st chunkId embedding).embeddingIndex
        = mapSet chunkId buf.length st.embeddingIndex ∧
      (storeEmbedding st chunkId embedding).embeddingDim = st.embeddingDim := by
  simp [storeEmbedding, h]

/-- C3 witness: the counterexample store, written through the amended
description. -/
theorem C3_witness :
    (storeEmbedding initState "a" [1, 2, 3]).embeddings = some [1, 2, 3] ∧
      (storeEmbedding (storeEmbedding initState "a" [1, 2, 3]) "b" [1, 2, 3, 4]).embeddings
          = some ([1, 2, 3] ++ [1, 2, 3, 4]) ∧
        (storeEmbedding (storeEmbedding initState "a" [1, 2, 3]) "b" [1, 2, 3, 4]).embeddingIndex
          = mapSet "b" 3 (storeEmbedding initState "a" [1, 2, 3]).embeddingIndex ∧
        (storeEmbedding (storeEmbedding initState "a" [1, 2, 3]) "b" [1, 2, 3, 4]).embeddingDim
          = (storeEmbedding initState "a" [1, 2, 3]).embeddingDim :=
  ⟨by simp [storeEmbedding, initState],
    by
      have := C3_amended (storeEmbedding initState "a" [1, 2, 3]) "b" [1, 2, 3, 4] [1, 2, 3]
        (by simp [storeEmbedding, initState])
      simpa using this⟩

theorem jsSliceTo_sublist {α : Type} (l : List α) (k : ℤ) : List.Sublist (jsSliceTo l k) l := by
  unfold jsSliceTo
  split_ifs <;> exact List.take_sublist _ _

/-- C4. Search ranking: (i) on the spec's concrete store — vectors `[1,0]`,
`[0,1]`, `[1,0]` under ids a, b, c in that insertion order — querying `[1,0]`
with `k = 2` returns the chunk of a then the chunk of c, each with similarity
1 (represented `⟨1,1⟩ = 1/√1`), and not b (similarity 0), with a before c by
the insertion-order tie-break; (ii) in general, whenever every candidate's
similarity is finite, the results are pairwise in descending similarity
order; (iii) in general the sort is stable on ties: the subsequence of
candidates whose similarity is value-equal to any fixed finite value is
unchanged by the sort, so tied candidates keep their insertion order. -/
theorem C4_search_ranking :
    (search rankState [1, 0] 2 none =
      [⟨"a".toList, [], some ⟨1, 1⟩⟩, ⟨"c".toList, [], some ⟨1, 1⟩⟩]) ∧
    (∀ (st : MemflixState) (qv : List ℚ) (k : ℤ) (pred : Option (ChunkData → Bool)),
      (∀ e ∈ searchSimilarities st qv pred, e.similarity ≠ none) →
      List.Pairwise (fun a b => simGe a.similarity b.similarity) (search st qv k pred)) ∧
    (∀ (st : MemflixState) (qv : List ℚ) (pred : Option (ChunkData → Bool)) (v : SimVal),
      0 < v.den →
      (∀ e ∈ searchSimilarities st qv pred, e.similarity ≠ none) →
      (stableSort entryBefore (searchSimilarities st qv pred)).filter (tieWith v)
        = (searchSimilarities st qv pred).filter (tieWith v)) := by
  refine ⟨?_, ?_, ?_⟩
  · simp [search, searchSimilarities, getEmbedding, mapGet, cosineSimilarity, sumSq,
      dotProduct, stableSort, insertEntry, entryBefore, simBefore, simValLe, jsSliceTo,
      rankState, exampleChunk]
  · intro st qv k pred h
    have hsome : ∀ e ∈ searchSimilarities st qv pred,
        ∃ v, e.similarity = some v ∧ 0 < v.den := by
      intro e he
      rcases Option.ne_none_iff_exists'.mp (h e he) with ⟨v, hv⟩
      exact ⟨v, hv, simEntry_den_pos he hv⟩
    have hsorted : List.Pairwise (fun a b => entryBefore b a = false)
        (stableSort entryBefore (searchSimilarities st qv pred)) := by
      apply pairwise_stableSort
      · intro x hx y hy hbe
        rcases hsome x hx with ⟨vx, hvx, _⟩
        rcases hsome y hy with ⟨vy, hvy, _⟩
        exact entryBefore_asym hvx hvy hbe
      · intro z hz y hy x hx h1 h2
        rcases hsome x hx with ⟨vx, hvx, dx⟩
        rcases hsome y hy with ⟨vy, hvy, dy⟩
        rcases hsome z hz with ⟨vz, hvz, dz⟩
        exact entryBefore_trans hvx hvy hvz dx dy dz h1 h2
    have hsorted' : List.Pairwise (fun a b => simGe a.similarity b.similarity)
        (stableSort entryBefore (searchSimilarities st qv pred)) := by
      refine hsorted.imp_of_mem ?_
      intro a b ha hb hab
      rcases hsome a (mem_stableSort.mp ha) with ⟨va, hva, _⟩
      rcases hsome b (mem_stableSort.mp hb) with ⟨vb, hvb, _⟩
      refine ⟨va, vb, hva, hvb, ?_⟩
      unfold entryBefore simBefore at hab
      rw [hvb, hva] at hab
      simpa using hab
    have hsliced := hsorted'.sublist (jsSliceTo_sublist _ k)
    unfold search
    rw [List.pairwise_map]
    exact hsliced
  · intro st qv pred v hv h
    apply filter_stableSort
    intro x hx y hy hpx hbyx
    rcases Option.ne_none_iff_exists'.mp (h x hx) with ⟨vx, hvx⟩
    rcases Option.ne_none_iff_exists'.mp (h y hy) with ⟨vy, hvy⟩
    have dx := simEntry_den_pos hx hvx
    have dy := simEntry_den_pos hy hvy
    unfold tieWith at hpx ⊢
    rw [hvx] at hpx
    rw [hvy]
    simp only [Bool.and_eq_true] at hpx
    unfold entryBefore simBefore at hbyx
    rw [hvy, hvx] at hbyx
    have hlt : simValLe vy vx = false := by simpa using hbyx
    cases hyv : simValLe vy v
    · simp [hyv]
    · exfalso
      have htr := simValLe_trans dy hv dx hyv hpx.2
      rw [htr] at hlt
      exact absurd hlt (by simp)

/-- C4 witness: the general descending-order and stability clauses applied to
the concrete ranking store (with `k = 3` so all three candidates appear). -/
theorem C4_witness :
    List.Pairwise (fun a b => simGe a.similarity b.similarity)
        (search rankState [1, 0] 3 none) ∧
      (stableSort entryBefore (searchSimilarities rankState [1, 0] none)).filter
          (tieWith ⟨1, 1⟩)
        = (searchSimilarities rankState [1, 0] none).filter (tieWith ⟨1, 1⟩) := by
  have hnn : ∀ e ∈ searchSimilarities rankState [1, 0] none, e.similarity ≠ none := by
    intro e he
    simp [searchSimilarities, getEmbedding, mapGet, cosineSimilarity, sumSq, dotProduct,
      rankState, exampleChunk] at he
    rcases he with rfl | rfl | rfl <;> simp
  exact ⟨C4_search_ranking.2.1 rankState [1, 0] 3 none hnn,
    C4_search_ranking.2.2 rankState [1, 0] none ⟨1, 1⟩ (by norm_num) hnn⟩

/-- C5. The claim says `search` with `k ≤ 0` returns an empty sequence; JS
`slice(0, k)` with negative `k` instead keeps all but the last `|k|` elements:
on a store with two candidates, `k = -1` returns one result. -/
theorem C5_counterexample :
    search twoCandState [(1 : ℚ)] (-1) none = [⟨"a".toList, [], some ⟨0, 1⟩⟩] := by
  simp [search, searchSimilarities, getEmbedding, mapGet, stableSort, insertEntry,
    entryBefore, simBefore, simValLe, jsSliceTo, twoCandState, exampleChunk]

/-- C5 (amended). `search` with `k = 0` returns the empty sequence; with `k`
at least the candidate count it returns all candidates (the full ranked
list); with negative `k` it returns all but the last `|k|` ranked candidates
(JS `slice(0, k)` semantics), so a negative `k` does not generally yield an
empty result. -/
theorem C5_amended (st : MemflixState) (qv : List ℚ) (pred : Option (ChunkData → Bool)) :
    search st qv 0 pred = [] ∧
      (∀ k : ℤ, ((searchSimilarities st qv pred).length : ℤ) ≤ k →
        search st qv k pred
          = (stableSort entryBefore (searchSimilarities st qv pred)).map
              (fun e => ⟨e.chunk.text, e.chunk.metadata, e.similarity⟩)) ∧
      (∀ k : ℤ, k < 0 →
        (search st qv k pred).length
          = (((searchSimilarities st qv pred).length : ℤ) + k).toNat) := by
  refine ⟨?_, ?_, ?_⟩
  · simp [search, jsSliceTo]
  · intro k hk
    unfold search jsSliceTo
    have h0 : (0 : ℤ) ≤ k := le_trans (by omega) hk
    rw [if_pos h0, List.take_of_length_le]
    rw [length_stableSort]
    omega
  · intro k hk
    unfold search jsSliceTo
    rw [if_neg (by omega)]
    rw [List.length_map, List.length_take, length_stableSort]
    omega

/-- C5 witness: the three amended clauses on the two-candidate store, with
`k = 0`, `k = 5` and `k = -1`. -/
theorem C5_witness :
    search twoCandState [(1 : ℚ)] 0 none = [] ∧
      search twoCandState [(1 : ℚ)] 5 none
        = (stableSort entryBefore (searchSimilarities twoCandState [(1 : ℚ)] none)).map
            (fun e => ⟨e.chunk.text, e.chunk.metadata, e.similarity⟩) ∧
      (search twoCandState [(1 : ℚ)] (-1) none).length
        = (((searchSimilarities twoCandState [(1 : ℚ)] none).length : ℤ) + (-1)).toNat :=
  ⟨(C5_amended twoCandState [1] none).1,
    (C5_amended twoCandState [1] none).2.1 5
      (by norm_num [searchSimilarities, twoCandState, exampleChunk]),
    (C5_amended twoCandState [1] none).2.2 (-1) (by norm_num)⟩

/-- C6. Round trip under a lossless frame codec: for any store whose encode
succeeds (the buffer exists) and whose index satisfies the `Map` invariant,
decoding the encoded frames — lossless codec and container modelled by the
frames arriving back unchanged — into any prior store rebuilds exactly the
original Chunk Index (even in the same order, hence equal as a set of
id/text/metadata records), decodes every frame (zero lost), and reports
`totalChunks` equal to the original index size. -/
theorem C6_roundtrip (st prior : MemflixState) (buf : List ℚ)
    (hbuf : st.embeddings = some buf) (hwf : wfIndex st.index) :
    ∃ res : EncodeResult,
      encodeToVideo st = .ok res ∧
      res.totalChunks = st.index.length ∧
      (decodeFromVideo prior (.ok res.sidecar) (.ok (res.frames.map FrameRead.ok))).1.index
        = st.index ∧
      (decodeFromVideo prior (.ok res.sidecar) (.ok (res.frames.map FrameRead.ok))).2
        = .ok ⟨st.index.length, st.index.length, st.index.length⟩ := by
  have hfr : (encodeFrames st).map FrameRead.ok = st.index.map (fun p => FrameRead.ok p.2) := by
    unfold encodeFrames
    rw [List.map_map]
    rfl
  have hing : ingestFrames (st.index.map (fun p => FrameRead.ok p.2)) [] 0
      = (st.index, st.index.length) := by
    have := ingestFrames_all_ok st.index [] 0 hwf.1 hwf.2 (by simp)
    simpa using this
  refine ⟨⟨encodeFrames st, ⟨buf, st.embeddingIndex, st.embeddingDim⟩, st.index.length⟩,
    ?_, rfl, ?_, ?_⟩
  · unfold encodeToVideo saveEmbeddings
    rw [hbuf]
  · show (decodeFromVideo prior _ _).1.index = st.index
    unfold decodeFromVideo
    simp only [hfr, hing]
  · show (decodeFromVideo prior _ _).2 = _
    unfold decodeFromVideo
    simp only [hfr, hing, List.length_map]

/-- C6 witness: the round trip on the concrete three-chunk ranking store,
decoded into an unrelated two-chunk store. -/
theorem C6_witness :
    rankState.embeddings = some [1, 0, 0, 1, 1, 0] ∧ wfIndex rankState.index ∧
      ∃ res : EncodeResult,
        encodeToVideo rankState = .ok res ∧
        res.totalChunks = rankState.index.length ∧
        (decodeFromVideo twoCandState (.ok res.sidecar)
            (.ok (res.frames.map FrameRead.ok))).1.index = rankState.index ∧
        (decodeFromVideo twoCandState (.ok res.sidecar)
            (.ok (res.frames.map FrameRead.ok))).2
          = .ok ⟨rankState.index.length, rankState.index.length, rankState.index.length⟩ :=
  ⟨rfl, by constructor <;> decide,
    C6_roundtrip rankState twoCandState [1, 0, 0, 1, 1, 0] rfl (by constructor <;> decide)⟩

/-- C7. A successful decode replaces the Chunk Index wholesale: the resulting
index is the same whatever store the decode ran against (no prior chunk
survives), every resulting entry is keyed by its record's id and stems from a
successfully decoded frame of the new video, and every decoded frame's id is
present in the resulting index. -/
theorem C7_decode_replaces (st1 st2 : MemflixState) (sc : Sidecar) (frames : List FrameRead) :
    (decodeFromVideo st1 (.ok sc) (.ok frames)).1.index
        = (decodeFromVideo st2 (.ok sc) (.ok frames)).1.index ∧
      (∀ p ∈ (decodeFromVideo st1 (.ok sc) (.ok frames)).1.index,
        p.2.id = p.1 ∧ FrameRead.ok p.2 ∈ frames) ∧
      (∀ c : ChunkData, FrameRead.ok c ∈ frames →
        c.id ∈ (decodeFromVideo st1 (.ok sc) (.ok frames)).1.index.map Prod.fst) := by
  refine ⟨rfl, ?_, ?_⟩
  · intro p hp
    have hp' : p ∈ (ingestFrames frames [] 0).1 := hp
    rcases ingestFrames_mem frames [] 0 p hp' with h | h
    · simp at h
    · exact ⟨h.2, h.1⟩
  · intro c hc
    exact ingestFrames_keys frames [] 0 c hc

/-- C7 witness: decoding a single-frame video into the two-candidate store
yields an index containing exactly the frame's id. -/
theorem C7_witness :
    ("a" : String) ∈ (decodeFromVideo twoCandState (Except.ok ⟨[], [], 384⟩)
        (Except.ok [FrameRead.ok (exampleChunk "a")])).1.index.map Prod.fst :=
  (C7_decode_replaces twoCandState rankState ⟨[], [], 384⟩
      [FrameRead.ok (exampleChunk "a")]).2.2 (exampleChunk "a") (by simp)

/-- C8. The claim says encode on an empty Chunk Index succeeds with a
zero-frame artifact; on a fresh store — exactly the state `processText("")`
leaves behind — `encodeToVideo` instead fails: `saveEmbeddings` evaluates
`Array.from(this.embeddings)` on the initial `null` buffer, a TypeError. -/
theorem C8_counterexample :
    encodeToVideo initState = .error EncodeError.nullEmbeddings := rfl

/-- C8 (amended). `processText("")` produces zero chunks and leaves the store
untouched (this half of the claim holds); `encodeToVideo` on the resulting
fresh store fails with the `Array.from(null)` TypeError rather than
succeeding, and only a store whose buffer exists (some vector was stored or a
sidecar was loaded) encodes an empty index successfully, producing zero
frames. -/
theorem C8_amended :
    (∀ (embedder : List Char → List ℚ) (hashFn : List Char → String) (st : MemflixState)
        (metadata : List (String × JsVal)) (maxSize batchSize : Nat),
      processText embedder hashFn st [] metadata maxSize batchSize = (st, [])) ∧
      encodeToVideo initState = .error EncodeError.nullEmbeddings ∧
      (∀ (st : MemflixState) (buf : List ℚ), st.embeddings = some buf → st.index = [] →
        encodeToVideo st = .ok ⟨[], ⟨buf, st.embeddingIndex, st.embeddingDim⟩, 0⟩) := by
  refine ⟨?_, rfl, ?_⟩
  · intro embedder hashFn st metadata maxSize batchSize
    unfold processText
    rw [show chunkText [] maxSize = [] from rfl]
    rw [processTextLoop]
  · intro st buf hb hidx
    unfold encodeToVideo saveEmbeddings encodeFrames
    rw [hb, hidx]
    rfl

/-- C8 witness: empty text on the concrete ranking store, and an
empty-index encode on a store whose buffer exists. -/
theorem C8_witness :
    processText (fun _ => ([] : List ℚ)) (fun _ => "h") rankState [] [] 1500 100
        = (rankState, []) ∧
      embOnlyState.embeddings = some [1] ∧ embOnlyState.index = [] ∧
      encodeToVideo embOnlyState
        = .ok ⟨[], ⟨[1], embOnlyState.embeddingIndex, embOnlyState.embeddingDim⟩, 0⟩ :=
  ⟨C8_amended.1 _ _ rankState [] 1500 100, rfl, rfl,
    C8_amended.2.2 embOnlyState [1] rfl rfl⟩

/-- C9. The claim says decode returns the number of successfully decoded
frames; the source returns `this.index.size` instead, which differs as soon
as two frames carry the same chunk id: two decodable frames under id "x"
yield a return value `totalChunks = 1` while the successfully-decoded count
(the model's `decodedCount`, printed in the log) is 2. -/
theorem C9_counterexample :
    (decodeFromVideo initState (.ok ⟨[], [], 384⟩) (.ok dupFrames)).2
        = .ok ⟨1, 2, 2⟩ ∧ (1 : Nat) ≠ 2 := by
  constructor
  · rfl
  · decide

/-- C9 (amended). A successful decode returns `totalChunks` equal to the size
of the rebuilt index — the number of distinct decoded ids — which equals the
count of successfully decoded frames only when those ids are distinct; the
decoded-frame count and the frames-examined count appear in the log line
only. -/
theorem C9_amended (st : MemflixState) (sc : Sidecar) (frames : List FrameRead) :
    (decodeFromVideo st (.ok sc) (.ok frames)).2
      = .ok ⟨(ingestFrames frames [] 0).1.length, (frames.filter isOkFrame).length,
          frames.length⟩ := by
  show Except.ok
      (⟨(ingestFrames frames [] 0).1.length, (ingestFrames frames [] 0).2, frames.length⟩ :
        DecodeResult) = _
  rw [ingestFrames_count frames [] 0]
  norm_num

/-- C10. If loading the sidecar fails, `decodeFromVideo` rethrows with the
whole state untouched; if frame extraction fails, it rethrows with the Chunk
Index still exactly as before the call (only the vector store was already
replaced): the prior index is cleared only after both external steps have
succeeded. -/
theorem C10_decode_error_preserves_index (st : MemflixState) (e : DecodeError) (sc : Sidecar)
    (frames : Except DecodeError (List FrameRead)) :
    decodeFromVideo st (.error e) frames = (st, .error e) ∧
      (decodeFromVideo st (.ok sc) (.error e)).1.index = st.index ∧
      (decodeFromVideo st (.ok sc) (.error e)).2 = .error e :=
  ⟨rfl, rfl, rfl⟩

end Memflix
